import Mathlib

/-!
Verification of the autoclips media-assembly engine.

This file gives a shallow embedding of the timeline/caption assembly code
(`src/media/assembler.py`, `src/media/captions.py`) and proves properties of
it.  Machine floating-point durations are modelled as exact rationals (ℚ);
Python `int(x)` on a non-negative value is modelled as the floor.
-/

namespace Autoclips

/-- Python's `\s` character class for `str` (ASCII whitespace):
space, tab, newline, carriage return, vertical tab, form feed. -/
def isPySpace (c : Char) : Bool :=
  c = ' ' || c = '\t' || c = '\n' || c = '\r' || c = '\x0b' || c = '\x0c'

/-- Python `str.split()` with no separator: split on runs of whitespace,
discarding empty tokens, over a character list. -/
def pySplitChars : List Char → List (List Char)
  | [] => []
  | c :: cs =>
    if isPySpace c then pySplitChars cs
    else (c :: cs.takeWhile (fun d => !isPySpace d)) ::
      pySplitChars (cs.dropWhile (fun d => !isPySpace d))
termination_by l => l.length
decreasing_by
  · simp only [List.length_cons]; omega
  · have := (List.dropWhile_sublist (p := fun d => !isPySpace d) (l := cs)).length_le
    simp only [List.length_cons]; omega

/-- Python `str.split()` on a `String`. -/
def pySplit (s : String) : List String :=
  (pySplitChars s.toList).map fun l => String.mk l

/-- `_clean_and_split` (captions.py:73): collapse whitespace runs, strip, split
on whitespace and drop empty tokens.  The normalization pass
(`re.sub(r"\s+", " ", text.strip())`) followed by `split()` and the non-empty
filter produces exactly the whitespace-delimited token list of the input,
which is what `pySplit` computes directly. -/
def clean_and_split (text : String) : List String :=
  pySplit text

/-- A word timestamp record `{word, start, end}` (captions.py). -/
structure WordTs where
  word : String
  start : ℚ
  «end» : ℚ
  deriving Repr, DecidableEq

/-- The timestamp-emitting loop of `generate_word_timestamps`
(captions.py:57-68): walk the words advancing `current_time` by
`time_per_word` for each. -/
def genTimestampsLoop (time_per_word : ℚ) : List String → ℚ → List WordTs
  | [], _ => []
  | w :: ws, current_time =>
    ⟨w, current_time, current_time + time_per_word⟩ ::
      genTimestampsLoop time_per_word ws (current_time + time_per_word)

/-- `generate_word_timestamps` (captions.py:33-70): fallback timing that gives
every word an equal share `audio_duration / len(words)` of the total. -/
def generate_word_timestamps (script : String) (audio_duration : ℚ) :
    List WordTs :=
  let words := clean_and_split script
  if words.isEmpty then []
  else
    let time_per_word := audio_duration / words.length
    genTimestampsLoop time_per_word words 0

/-- Loop count used by `_build_video_track` (assembler.py:152) when a clip is
shorter than its slice: `int(actual_duration / clip.duration) + 1`.  Both
arguments are positive there, so Python's truncating `int` is the floor. -/
def loops_needed (actual_duration clip_duration : ℚ) : ℤ :=
  ⌊actual_duration / clip_duration⌋ + 1

/-- Loop count used by `_build_audio_track` (assembler.py:244) when the music
track is shorter than the total duration: `int(duration / music.duration) + 1`. -/
def music_loops (duration music_duration : ℚ) : ℤ :=
  ⌊duration / music_duration⌋ + 1

/-! ### Caption preprocessing (`_preprocess_timestamps`, captions.py:137-199) -/

/-- Python `str.strip()` on a character list: drop whitespace from both ends. -/
def pyStripChars (l : List Char) : List Char :=
  ((l.dropWhile isPySpace).reverse.dropWhile isPySpace).reverse

/-- Python `word.split("\n\n")`: split on each leftmost non-overlapping
occurrence of two consecutive newlines. -/
def splitParagraphs : List Char → List (List Char)
  | [] => [[]]
  | '\n' :: '\n' :: rest => [] :: splitParagraphs rest
  | c :: rest =>
    match splitParagraphs rest with
    | l :: ls => (c :: l) :: ls
    | [] => [[c]]

/-- Python `"\n\n" in word`. -/
def containsParaBreak : List Char → Bool
  | [] => false
  | '\n' :: '\n' :: _ => true
  | _ :: rest => containsParaBreak rest

/-- Sentence-ending punctuation characters of the regex class `[.!?]`. -/
def isSentencePunct (c : Char) : Bool :=
  c = '.' || c = '!' || c = '?'

/-- The regex class `[A-Z]` (ASCII uppercase). -/
def isAsciiUpper (c : Char) : Bool :=
  'A' ≤ c && c ≤ 'Z'

/-- `re.match(r'^(.+[.!?])([A-Z].*)$', word)` (captions.py:172), as the split it
produces.  `.` never matches a newline, and `$` matches at the end of the
string or just before one final newline, so a match exists exactly when the
word (less one optional trailing newline) is newline-free and some position
`i` splits it into a part of length `i ≥ 2` ending in `.`/`!`/`?` followed by
a part starting with an ASCII capital; the greedy `.+` with backtracking
selects the largest such `i`. -/
def sentenceConcatSplit (word : String) : Option (String × String) :=
  let chars := word.toList
  let body := if chars.getLast? = some '\n' then chars.dropLast else chars
  if body.any (fun c => c = '\n') then none
  else
    let n := body.length
    let candidates := (List.range n).filter fun i =>
      decide (2 ≤ i) &&
        (match body[i-1]?, body[i]? with
         | some p, some u => isSentencePunct p && isAsciiUpper u
         | _, _ => false)
    match candidates.max? with
    | some i => some (String.mk (body.take i), String.mk (body.drop i))
    | none => none

/-- The part-emitting loop of the paragraph-break branch
(captions.py:157-167): give each part a share of the original duration
proportional to its character count, advancing `current_time`. -/
def distributeParts (duration : ℚ) (total_chars nparts : ℕ) :
    List String → ℚ → List WordTs
  | [], _ => []
  | p :: ps, current_time =>
    let part_duration :=
      if 0 < total_chars then duration * ((p.length : ℚ) / total_chars)
      else duration / nparts
    ⟨p, current_time, current_time + part_duration⟩ ::
      distributeParts duration total_chars nparts ps (current_time + part_duration)

/-- The non-empty stripped parts of a word split on paragraph breaks
(captions.py:154): `[p.strip() for p in word.split("\n\n") if p.strip()]`. -/
def paraParts (word : String) : List String :=
  ((splitParagraphs word.toList).map fun p => String.mk (pyStripChars p)).filter
    fun p => p ≠ ""

/-- Processing of one timestamp record inside `_preprocess_timestamps`
(captions.py:145-197): split on paragraph breaks when that yields more than
one part, else split provider-concatenated sentences, else clean newlines and
drop the record if it becomes empty. -/
def processTimestamp (ts : WordTs) : List WordTs :=
  let word := ts.word
  let start := ts.start
  let duration := ts.«end» - start
  let pbSplit : Option (List WordTs) :=
    if containsParaBreak word.toList then
      let parts := paraParts word
      if 1 < parts.length then
        some (distributeParts duration ((parts.map String.length).sum)
          parts.length parts start)
      else none
    else none
  match pbSplit with
  | some out => out
  | none =>
    match sentenceConcatSplit word with
    | some (part1, part2) =>
      let total_chars : ℚ := (part1.length : ℚ) + (part2.length : ℚ)
      let part1_duration := duration * ((part1.length : ℚ) / total_chars)
      [⟨part1, start, start + part1_duration⟩,
       ⟨part2, start + part1_duration, ts.«end»⟩]
    | none =>
      let clean_word :=
        String.mk (pyStripChars (word.toList.map fun c => if c = '\n' then ' ' else c))
      if clean_word ≠ "" then [⟨clean_word, start, ts.«end»⟩] else []

/-- `_preprocess_timestamps` (captions.py:137-199): the loop appends each
record's pieces in order. -/
def preprocess_timestamps (word_timestamps : List WordTs) : List WordTs :=
  word_timestamps.flatMap processTimestamp

/-! ### Sentence grouping (`_group_into_sentences`, captions.py:337-363) -/

/-- Python `word.endswith((".", "!", "?"))`: with one-character suffixes this
tests whether the word's final character is `.`, `!` or `?`. -/
def endsSentencePunct (w : String) : Bool :=
  match w.toList.getLast? with
  | some c => isSentencePunct c
  | none => false

/-- The accumulation loop of `_group_into_sentences` (captions.py:350-361):
append the token to the current group, then close the group when the token
ends a sentence or the group has reached `max_words`; flush the remainder. -/
def groupLoop (max_words : ℕ) : List WordTs → List WordTs → List (List WordTs)
  | [], current_sentence =>
    if current_sentence.isEmpty then [] else [current_sentence]
  | ts :: rest, current_sentence =>
    let current := current_sentence ++ [ts]
    if endsSentencePunct ts.word || max_words ≤ current.length then
      current :: groupLoop max_words rest []
    else
      groupLoop max_words rest current

/-- `_group_into_sentences` (captions.py:337-363); the source default for
`max_words` is 4. -/
def group_into_sentences (word_timestamps : List WordTs) (max_words : ℕ) :
    List (List WordTs) :=
  groupLoop max_words word_timestamps []

/-! ### Text wrapping (`_estimate_text_width` / `_wrap_text_by_words`,
captions.py:85-134) -/

/-- `_estimate_text_width` (captions.py:85-93):
`int(len(text) * (font_size * 0.6))`, modelled exactly over ℚ; the value is
non-negative, so Python's truncating `int` is the floor. -/
def estimateWidthChars (text : List Char) (font_size : ℕ) : ℤ :=
  ⌊(text.length : ℚ) * ((font_size : ℚ) * (6 / 10))⌋

/-- `_estimate_text_width` on a `String`. -/
def estimate_text_width (text : String) (font_size : ℕ) : ℤ :=
  estimateWidthChars text.toList font_size

/-- The greedy packing loop of `_wrap_text_by_words` (captions.py:110-132),
returning the word groups that become lines. -/
def wrapLoop (font_size : ℕ) (max_width space_width : ℤ) :
    List (List Char) → List (List (List Char)) → List (List Char) → ℤ →
    List (List (List Char))
  | [], lines, current_line, _ =>
    if current_line.isEmpty then lines else lines ++ [current_line]
  | word :: ws, lines, current_line, current_width =>
    let word_width := estimateWidthChars word font_size
    let new_width :=
      if current_line.isEmpty then word_width
      else current_width + space_width + word_width
    if new_width ≤ max_width || current_line.isEmpty then
      wrapLoop font_size max_width space_width ws lines
        (current_line ++ [word]) new_width
    else
      wrapLoop font_size max_width space_width ws (lines ++ [current_line])
        [word] word_width

/-- The word groups forming the output lines of `_wrap_text_by_words`. -/
def wrapLines (text : String) (font_size : ℕ) (max_width : ℤ) :
    List (List (List Char)) :=
  wrapLoop font_size max_width (estimateWidthChars [' '] font_size)
    (pySplitChars text.toList) [] [] 0

/-- Python `sep.flatten(pieces)` for a one-character separator. -/
def joinSep (sep : Char) : List (List Char) → List Char
  | [] => []
  | [w] => w
  | w :: ws => w ++ sep :: joinSep sep ws

/-- The width the wrapping loop accounts to a line: the sum of the per-word
estimates plus one space estimate between consecutive words (this is the
`current_width` bookkeeping of captions.py:110-128). -/
def lineWidth (font_size : ℕ) (space_width : ℤ) (g : List (List Char)) : ℤ :=
  (g.map fun w => estimateWidthChars w font_size).sum +
    ((g.length - 1 : ℕ) : ℤ) * space_width

/-- `_wrap_text_by_words` (captions.py:96-134): lines are words joined by a
single space, and the result is the lines joined by single newlines; an input
with no words is returned unchanged. -/
def wrap_text_by_words (text : String) (font_size : ℕ) (max_width : ℤ) :
    String :=
  if (pySplitChars text.toList).isEmpty then text
  else
    String.mk (joinSep '\n'
      ((wrapLines text font_size max_width).map (joinSep ' ')))

/-! ### Timeline building (`_build_video_track`, assembler.py:105-187) -/

/-- A footage clip together with the outcome of loading its file:
`some d` when `VideoFileClip` succeeds and reports native duration `d`,
`none` when the file is missing or loading raises (the clip is skipped). -/
structure Footage where
  filename : String
  keyword : String
  load : Option ℚ
  deriving Repr, DecidableEq

/-- `TimelineEntry` (core/project.py): `{clip_filename, start, end, keyword}`. -/
structure TimelineEntry where
  clip_filename : String
  start : ℚ
  «end» : ℚ
  keyword : String
  deriving Repr, DecidableEq

/-- A footage clip as placed on the composite video track: its start offset,
its trimmed duration (`subclipped(0, actual_duration)`), and the `Loop(n)`
effect applied beforehand when the native duration was too short. -/
structure PlacedClip where
  filename : String
  start : ℚ
  duration : ℚ
  loops : Option ℤ
  deriving Repr, DecidableEq

/-- The per-clip loop of `_build_video_track` (assembler.py:133-174): skip
clips that fail to load; otherwise clamp the slice end to the total duration,
loop the clip `loops_needed` times if it is too short, trim to the slice, and
record a `TimelineEntry`, advancing `current_time` to the slice end. -/
def processClips (clip_duration total : ℚ) :
    List Footage → ℚ → List PlacedClip × List TimelineEntry
  | [], _ => ([], [])
  | footage :: rest, current_time =>
    match footage.load with
    | none => processClips clip_duration total rest current_time
    | some native =>
      let clip_end := min (current_time + clip_duration) total
      let actual_duration := clip_end - current_time
      let loops :=
        if native < actual_duration then some (loops_needed actual_duration native)
        else none
      let res := processClips clip_duration total rest clip_end
      (⟨footage.filename, current_time, actual_duration, loops⟩ :: res.1,
       ⟨footage.filename, current_time, clip_end, footage.keyword⟩ :: res.2)

/-- The video track returned by `_build_video_track`: either a solid
`ColorClip` filler of the configured dimensions, or the composite of the
placed footage clips. -/
inductive VideoTrack where
  | filler (width height : ℕ) (color : ℕ × ℕ × ℕ) (duration : ℚ)
  | composite (width height : ℕ) (clips : List PlacedClip)
  deriving Repr, DecidableEq

/-- The result of `_build_video_track`: the track plus the timeline passed to
`project.set_timeline` (`none` when that call is never reached, which happens
exactly on the empty-footage early return, assembler.py:118-124). -/
structure BuildResult where
  track : VideoTrack
  persisted : Option (List TimelineEntry)
  deriving Repr, DecidableEq

/-- `_build_video_track` (assembler.py:105-187). -/
def build_video_track (width height : ℕ) (footage_clips : List Footage)
    (duration : ℚ) : BuildResult :=
  if footage_clips.isEmpty then
    ⟨.filler width height (0, 0, 0) duration, none⟩
  else
    let clip_duration := duration / footage_clips.length
    let res := processClips clip_duration duration footage_clips 0
    if res.1.isEmpty then
      ⟨.filler width height (0, 0, 0) duration, some res.2⟩
    else
      ⟨.composite width height res.1, some res.2⟩

/-- The music-fitting step of `_build_audio_track` (assembler.py:242-247):
the `AudioLoop(n_loops)` effect applied when the track is shorter than the
total duration, and the duration after `subclipped(0, duration)`. -/
structure MusicFit where
  loops : Option ℤ
  final_duration : ℚ
  deriving Repr, DecidableEq

/-- Fit the background-music track to the total duration
(assembler.py:242-247). -/
def fit_music_track (music_duration total : ℚ) : MusicFit :=
  if music_duration < total then ⟨some (music_loops total music_duration), total⟩
  else ⟨none, total⟩

/-! ### Hardware-encoder probe (`_check_nvidia_gpu`, assembler.py:23-51) -/

/-- Outcome of one attempted `subprocess.run(["ffmpeg", ...])`: either the
process completes with some stdout, or an exception is raised (missing
binary, timeout, ...). -/
inductive ProbeOutcome where
  | success (stdout : String)
  | failure
  deriving Repr, DecidableEq

/-- The value the probe body stores: `"h264_nvenc" in result.stdout`, and
`False` on any exception (assembler.py:42-48). -/
def probeResult : ProbeOutcome → Bool
  | .success out => decide ("h264_nvenc".toList <:+: out.toList)
  | .failure => false

/-- One call of `_check_nvidia_gpu` (assembler.py:27-51), with the module
global `_gpu_available` passed as explicit state.  Returns the call's result,
the new cache state, and how many times the underlying capability check ran
during this call. -/
def check_nvidia_gpu (gpu_available : Option Bool) (probe : ProbeOutcome) :
    Bool × Option Bool × ℕ :=
  match gpu_available with
  | some b => (b, some b, 0)
  | none =>
    let r := probeResult probe
    (r, some r, 1)

/-- A sequence of `_check_nvidia_gpu` calls in one process, threading the
module-global cache; each call is given the probe outcome its subprocess run
would have had.  Returns all results, the final cache, and the total number
of capability-check invocations. -/
def gpuCalls (gpu_available : Option Bool) :
    List ProbeOutcome → List Bool × Option Bool × ℕ
  | [] => ([], gpu_available, 0)
  | probe :: rest =>
    let c := check_nvidia_gpu gpu_available probe
    let r := gpuCalls c.2.1 rest
    (c.1 :: r.1, r.2.1, c.2.2 + r.2.2)

/-! ### Spec-side model of the sqrt-weighted fallback timing -/

/-- Modelled from the spec: the per-token spans of the sqrt-length-weighted
fallback timing described in §4.2 — no such allocator exists in the source
(`generate_word_timestamps` uses equal time per word).  Each token is
weighted by `sqrt(max(len(token), 1))`, the total duration is allocated
proportionally to weight, and a floor of 0.15 s per token is enforced. -/
noncomputable def sqrtSpans (words : List String) (totalDuration : ℝ) :
    List ℝ :=
  let total := (words.map fun w => Real.sqrt ((max w.length 1 : ℕ) : ℝ)).sum
  words.map fun w =>
    max (totalDuration * (Real.sqrt ((max w.length 1 : ℕ) : ℝ) / total)) (15 / 100)

/-- Lay given spans out consecutively from a start offset. -/
def allocSpans {α : Type} [Add α] : List (String × α) → α → List (String × α × α)
  | [], _ => []
  | (w, s) :: rest, t => (w, t, t + s) :: allocSpans rest (t + s)

/-- Modelled from the spec: the full sqrt-length-weighted fallback generator
of §4.2 (absent from the source) — allocate the sqrt-weighted, floored spans
consecutively from 0, then rescale every timestamp by
`totalDuration / computedEndOfLastToken`. -/
noncomputable def sqrtWeightedTimestamps (words : List String)
    (totalDuration : ℝ) : List (String × ℝ × ℝ) :=
  let raw := allocSpans (words.zip (sqrtSpans words totalDuration)) 0
  match raw.getLast? with
  | none => []
  | some last =>
    let factor := totalDuration / last.2.2
    raw.map fun p => (p.1, factor * p.2.1, factor * p.2.2)

/-! ## Theorems -/

/-- For a rational that is not an integer, the ceiling is the floor plus one. -/
lemma ceil_eq_floor_add_one_of_not_int {x : ℚ} (h : ∀ n : ℤ, x ≠ n) :
    ⌈x⌉ = ⌊x⌋ + 1 := by
  have h1 : ⌈x⌉ ≤ ⌊x⌋ + 1 := Int.ceil_le_floor_add_one x
  have h2 : ⌊x⌋ < ⌈x⌉ := by
    rcases lt_or_eq_of_le (Int.floor_le_ceil x) with hlt | heq
    · exact hlt
    · exfalso
      have hx : x = (⌊x⌋ : ℚ) := by
        have hle : x ≤ (⌊x⌋ : ℚ) := by
          rw [heq]; exact Int.le_ceil x
        exact le_antisymm hle (Int.floor_le x)
      exact h ⌊x⌋ hx
  omega

/-- C3 counterexample: with clip duration 2 shorter than slice duration 4 the
looping branch is taken, and the code computes 3 repetitions (for both the
video clips and the music track), not `ceil(4 / 2) = 2` as the claim states
for exact division. -/
theorem c3_counterexample :
    (2 : ℚ) < 4 ∧ loops_needed 4 2 = 3 ∧ music_loops 4 2 = 3 ∧
      ⌈(4 : ℚ) / 2⌉ = 2 := by
  refine ⟨by norm_num, ?_, ?_, by norm_num⟩ <;>
    simp [loops_needed, music_loops] <;> norm_num

/-- C3 (amended): whenever the clip (resp. music track) is shorter than its
slice (resp. the total duration), both loop counts equal
`floor(slice / clip) + 1`; this agrees with `ceil(slice / clip)` exactly when
the division is not exact, and is `ceil + 1` when it is exact. -/
theorem c3_loops_floor_add_one (a c : ℚ) (_hc : 0 < c) (_hca : c < a) :
    loops_needed a c = ⌊a / c⌋ + 1 ∧ music_loops a c = ⌊a / c⌋ + 1 ∧
    ((∀ n : ℤ, a / c ≠ (n : ℚ)) →
      loops_needed a c = ⌈a / c⌉ ∧ music_loops a c = ⌈a / c⌉) ∧
    ((∃ n : ℤ, a / c = (n : ℚ)) →
      loops_needed a c = ⌈a / c⌉ + 1 ∧ music_loops a c = ⌈a / c⌉ + 1) := by
  refine ⟨rfl, rfl, ?_, ?_⟩
  · intro h
    rw [loops_needed, music_loops, ceil_eq_floor_add_one_of_not_int h]
    exact ⟨rfl, rfl⟩
  · rintro ⟨n, hn⟩
    rw [loops_needed, music_loops, hn, Int.floor_intCast, Int.ceil_intCast]
    exact ⟨rfl, rfl⟩

/-- C3 witness: the exact-division instance 4 / 2 with the clip shorter than
the slice. -/
theorem c3_witness :
    loops_needed 4 2 = ⌈(4 : ℚ) / 2⌉ + 1 ∧
      music_loops 4 2 = ⌈(4 : ℚ) / 2⌉ + 1 :=
  (c3_loops_floor_add_one 4 2 (by norm_num) (by norm_num)).2.2.2
    ⟨2, by norm_num⟩

/-- After the first call has filled the cache, every further call returns the
cached value and never invokes the capability check. -/
lemma gpuCalls_cached (b : Bool) :
    ∀ probes : List ProbeOutcome,
      gpuCalls (some b) probes = (List.replicate probes.length b, some b, 0) := by
  intro probes
  induction probes with
  | nil => rfl
  | cons p rest ih => simp [gpuCalls, check_nvidia_gpu, ih, List.replicate_succ]

/-- C9: any sequence of `_check_nvidia_gpu` calls in one process runs the
underlying encoder-capability check at most once, and every call returns the
same (memoized) result as the first. -/
theorem c9_probe_memoized (probes : List ProbeOutcome) :
    ∃ r : Bool, (gpuCalls none probes).1 = List.replicate probes.length r ∧
      (gpuCalls none probes).2.2 ≤ 1 := by
  cases probes with
  | nil => exact ⟨true, rfl, by decide⟩
  | cons p rest =>
    refine ⟨probeResult p, ?_, ?_⟩ <;>
      simp [gpuCalls, check_nvidia_gpu, gpuCalls_cached, List.replicate_succ]

/-- When every footage clip fails to load, the per-clip loop produces no
placed clip and no timeline entry. -/
lemma processClips_all_skipped (cd D : ℚ) :
    ∀ clips : List Footage, (∀ f ∈ clips, f.load = none) →
      ∀ t, processClips cd D clips t = ([], []) := by
  intro clips h
  induction clips with
  | nil => intro t; rfl
  | cons f rest ih =>
    intro t
    have hf : f.load = none := h f (by simp)
    have hrest : ∀ g ∈ rest, g.load = none := fun g hg => h g (by simp [hg])
    simp [processClips, hf, ih hrest]

/-- C8: for any positive total duration, an empty footage list — or one in
which every clip fails to load — makes `_build_video_track` return the solid
black filler clip of the configured dimensions spanning the whole duration,
rather than raising. -/
theorem c8_filler_fallback (width height : ℕ) (footage_clips : List Footage)
    (D : ℚ) (_hD : 0 < D)
    (h : footage_clips = [] ∨ ∀ f ∈ footage_clips, f.load = none) :
    (build_video_track width height footage_clips D).track =
      VideoTrack.filler width height (0, 0, 0) D := by
  rcases h with h | h
  · subst h; rfl
  · cases footage_clips with
    | nil => rfl
    | cons f rest =>
      simp [build_video_track, processClips_all_skipped _ _ _ h 0]

/-- C8 witness: the empty footage list with total duration 7. -/
theorem c8_filler_fallback_witness :
    (build_video_track 1080 1920 [] 7).track =
      VideoTrack.filler 1080 1920 (0, 0, 0) 7 :=
  c8_filler_fallback 1080 1920 [] 7 (by norm_num) (Or.inl rfl)

/-- The fallback timing loop emits one record per word, in order. -/
lemma genTimestampsLoop_words (tpw : ℚ) :
    ∀ (ws : List String) (t : ℚ),
      (genTimestampsLoop tpw ws t).map WordTs.word = ws := by
  intro ws
  induction ws with
  | nil => intro t; rfl
  | cons w rest ih => intro t; simp [genTimestampsLoop, ih]

/-- Every record of the fallback timing loop spans exactly `time_per_word`. -/
lemma genTimestampsLoop_span (tpw : ℚ) :
    ∀ (ws : List String) (t : ℚ) (e : WordTs),
      e ∈ genTimestampsLoop tpw ws t → e.«end» - e.start = tpw := by
  intro ws
  induction ws with
  | nil => intro t e he; simp [genTimestampsLoop] at he
  | cons w rest ih =>
    intro t e he
    rcases (by simpa [genTimestampsLoop] using he :
        e = ⟨w, t, t + tpw⟩ ∨ e ∈ genTimestampsLoop tpw rest (t + tpw)) with h | h
    · subst h; ring
    · exact ih _ _ h

/-- The last record of the fallback timing loop ends at
`t + len * time_per_word`. -/
lemma genTimestampsLoop_last (tpw : ℚ) :
    ∀ (ws : List String) (t : ℚ), ws ≠ [] →
      (genTimestampsLoop tpw ws t).getLast?.map (fun e => e.«end») =
        some (t + ws.length * tpw) := by
  intro ws
  induction ws with
  | nil => intro t h; exact absurd rfl h
  | cons w rest ih =>
    intro t _
    cases rest with
    | nil => simp [genTimestampsLoop]
    | cons r rs =>
      have htail := ih (t + tpw) (by simp)
      simp only [genTimestampsLoop] at htail ⊢
      rw [List.getLast?_cons_cons, htail]
      congr 1
      simp only [List.length_cons]
      push_cast
      ring

/-- Every record of the fallback timing loop starts no earlier than the
running offset it was launched from. -/
lemma genTimestampsLoop_start_ge (tpw : ℚ) (h : 0 ≤ tpw) :
    ∀ (ws : List String) (t : ℚ) (e : WordTs),
      e ∈ genTimestampsLoop tpw ws t → t ≤ e.start := by
  intro ws
  induction ws with
  | nil => intro t e he; simp [genTimestampsLoop] at he
  | cons w rest ih =>
    intro t e he
    rcases (by simpa [genTimestampsLoop] using he :
        e = ⟨w, t, t + tpw⟩ ∨ e ∈ genTimestampsLoop tpw rest (t + tpw)) with hh | hh
    · subst hh; exact le_refl t
    · exact le_trans (by linarith) (ih _ _ hh)

/-- The fallback timing loop's start values are non-decreasing. -/
lemma genTimestampsLoop_pairwise (tpw : ℚ) (h : 0 ≤ tpw) :
    ∀ (ws : List String) (t : ℚ),
      (genTimestampsLoop tpw ws t).Pairwise fun a b => a.start ≤ b.start := by
  intro ws
  induction ws with
  | nil => intro t; simp [genTimestampsLoop]
  | cons w rest ih =>
    intro t
    rw [genTimestampsLoop, List.pairwise_cons]
    refine ⟨fun e he => ?_, ih _⟩
    exact le_trans (by linarith) (genTimestampsLoop_start_ge tpw h rest _ e he)

/-- C5: for a positive total duration and a script with at least one token,
the fallback generator's start values are non-decreasing and its last record
ends exactly at the total duration (the source computes this exactly in our
rational model of the float arithmetic, hence within any epsilon). -/
theorem c5_fallback_monotone_ends_at_duration (script : String) (D : ℚ)
    (hD : 0 < D) (hne : clean_and_split script ≠ []) :
    (generate_word_timestamps script D).Pairwise
        (fun a b => a.start ≤ b.start) ∧
      (generate_word_timestamps script D).getLast?.map (fun e => e.«end») =
        some D := by
  have hlen : (0 : ℚ) < (clean_and_split script).length := by
    have := List.length_pos.mpr hne
    exact_mod_cast this
  have hisEmpty : (clean_and_split script).isEmpty = false := by
    simpa [List.isEmpty_iff] using hne
  have hout : generate_word_timestamps script D =
      genTimestampsLoop (D / (clean_and_split script).length)
        (clean_and_split script) 0 := by
    simp [generate_word_timestamps, hisEmpty]
  rw [hout]
  constructor
  · exact genTimestampsLoop_pairwise _ (le_of_lt (div_pos hD hlen)) _ _
  · rw [genTimestampsLoop_last _ _ _ hne]
    congr 1
    field_simp

/-- C5 witness: the two-token script `"hello world"` with total duration 2. -/
theorem c5_witness :
    (generate_word_timestamps "hello world" 2).Pairwise
        (fun a b => a.start ≤ b.start) ∧
      (generate_word_timestamps "hello world" 2).getLast?.map
          (fun e => e.«end») = some 2 :=
  c5_fallback_monotone_ends_at_duration "hello world" 2 (by norm_num)
    (by simp [clean_and_split, pySplit, pySplitChars, isPySpace])

/-- C2 (amended): the fallback generator allocates an equal span
`D / len(words)` to every token — not a sqrt-length-weighted span — and the
last record ends exactly at the total duration. -/
theorem c2_equal_time_per_word (script : String) (D : ℚ)
    (hne : clean_and_split script ≠ []) :
    (generate_word_timestamps script D).map WordTs.word =
        clean_and_split script ∧
      (∀ e ∈ generate_word_timestamps script D,
        e.«end» - e.start = D / (clean_and_split script).length) ∧
      (generate_word_timestamps script D).getLast?.map (fun e => e.«end») =
        some D := by
  have hlen0 : (clean_and_split script).length ≠ 0 :=
    Nat.pos_iff_ne_zero.mp (List.length_pos.mpr hne)
  have hlen : ((clean_and_split script).length : ℚ) ≠ 0 :=
    Nat.cast_ne_zero.mpr hlen0
  have hisEmpty : (clean_and_split script).isEmpty = false := by
    simpa [List.isEmpty_iff] using hne
  have hout : generate_word_timestamps script D =
      genTimestampsLoop (D / (clean_and_split script).length)
        (clean_and_split script) 0 := by
    simp [generate_word_timestamps, hisEmpty]
  rw [hout]
  refine ⟨genTimestampsLoop_words _ _ _,
    fun e he => genTimestampsLoop_span _ _ _ e he, ?_⟩
  rw [genTimestampsLoop_last _ _ _ hne]
  congr 1
  field_simp

/-- C2 witness: the script `"a abcd"` with total duration 2; both tokens get
the equal span `2 / 2 = 1`. -/
theorem c2_equal_time_per_word_witness :
    (generate_word_timestamps "a abcd" 2).map WordTs.word =
        clean_and_split "a abcd" ∧
      (∀ e ∈ generate_word_timestamps "a abcd" 2,
        e.«end» - e.start = 2 / (clean_and_split "a abcd").length) ∧
      (generate_word_timestamps "a abcd" 2).getLast?.map (fun e => e.«end») =
        some 2 :=
  c2_equal_time_per_word "a abcd" 2
    (by simp [clean_and_split, pySplit, pySplitChars, isPySpace])

/-- C2 counterexample: on the script `"a abcd"` with total duration 2 the
source's fallback generator emits equal spans (1 and 1), whereas the
sqrt-length-weighted allocator described by the claim (weights √1 = 1 and
√4 = 2, floor not binding, rescale factor 1) would emit spans 2/3 and 4/3;
the two outputs differ. -/
theorem c2_counterexample :
    (generate_word_timestamps "a abcd" 2).map
        (fun e => (e.word, (e.start : ℝ), (e.«end» : ℝ))) ≠
      sqrtWeightedTimestamps (clean_and_split "a abcd") 2 := by
  have hws : clean_and_split "a abcd" = ["a", "abcd"] := by
    simp [clean_and_split, pySplit, pySplitChars, isPySpace]
  have hisEmpty : (clean_and_split "a abcd").isEmpty = false := by
    rw [hws]; rfl
  have hL : generate_word_timestamps "a abcd" 2 =
      [⟨"a", 0, 1⟩, ⟨"abcd", 1, 2⟩] := by
    simp [generate_word_timestamps, hisEmpty, hws, genTimestampsLoop]
    norm_num
  have hsqrt1 : Real.sqrt ((max (String.length "a") 1 : ℕ) : ℝ) = 1 := by
    rw [show ((max (String.length "a") 1 : ℕ) : ℝ) = 1 by
      norm_num [show String.length "a" = 1 from rfl]]
    exact Real.sqrt_one
  have hsqrt4 : Real.sqrt ((max (String.length "abcd") 1 : ℕ) : ℝ) = 2 := by
    rw [show ((max (String.length "abcd") 1 : ℕ) : ℝ) = 4 by
      norm_num [show String.length "abcd" = 4 from rfl]]
    rw [show (4 : ℝ) = 2 ^ 2 by norm_num]
    exact Real.sqrt_sq (by norm_num)
  have hspans : sqrtSpans ["a", "abcd"] 2 = [2 / 3, 4 / 3] := by
    simp only [sqrtSpans, List.map_cons, List.map_nil, hsqrt1, hsqrt4,
      List.sum_cons, List.sum_nil]
    norm_num [max_def]
  have hraw : allocSpans (List.zip ["a", "abcd"] (sqrtSpans ["a", "abcd"] 2))
      (0 : ℝ) = [("a", (0 : ℝ), 2 / 3), ("abcd", 2 / 3, 2)] := by
    rw [hspans]
    simp [allocSpans]
    norm_num
  have hR : sqrtWeightedTimestamps (clean_and_split "a abcd") 2 =
      [("a", (0 : ℝ), 2 / 3), ("abcd", 2 / 3, 2)] := by
    rw [hws]
    simp only [sqrtWeightedTimestamps, hraw]
    norm_num
  rw [hL, hR]
  intro h
  simp only [List.map_cons, List.map_nil, List.cons.injEq, Prod.mk.injEq] at h
  have h1 : ((1 : ℚ) : ℝ) = 2 / 3 := h.1.2.2
  norm_num at h1

/-- One unfolding of the per-clip loop's timeline on a successfully loading
head clip. -/
lemma processClips_timeline_cons (cd D t d : ℚ) (f : Footage)
    (rest : List Footage) (hload : f.load = some d) :
    (processClips cd D (f :: rest) t).2 =
      ⟨f.filename, t, min (t + cd) D, f.keyword⟩ ::
        (processClips cd D rest (min (t + cd) D)).2 := by
  conv_lhs => rw [processClips]
  rw [hload]

/-- Timeline invariants of the per-clip loop: starting from offset `t` with
`t + n·cd = D`, every clip loading, and a positive slice `cd`, the produced
timeline starts at `t`, ends at `D`, is contiguous, strictly sorted and
non-overlapping, and every entry sits inside `[t, D]` with positive extent. -/
lemma processClips_timeline (cd D : ℚ) (hcd : 0 < cd) :
    ∀ (clips : List Footage) (t : ℚ), clips ≠ [] →
      (∀ f ∈ clips, f.load ≠ none) →
      t + clips.length * cd = D →
      (processClips cd D clips t).2.head?.map TimelineEntry.start = some t ∧
      (processClips cd D clips t).2.getLast?.map (fun e => e.«end») = some D ∧
      List.Chain' (fun a b => a.«end» = b.start) (processClips cd D clips t).2 ∧
      (processClips cd D clips t).2.Pairwise
        (fun a b => a.«end» ≤ b.start ∧ a.start < b.start) ∧
      ∀ e ∈ (processClips cd D clips t).2,
        t ≤ e.start ∧ e.start < e.«end» ∧ e.«end» ≤ D := by
  intro clips
  induction clips with
  | nil => intro t h; exact absurd rfl h
  | cons f rest ih =>
    intro t _ hok ht
    obtain ⟨d, hload⟩ := Option.ne_none_iff_exists'.mp (hok f (by simp))
    cases rest with
    | nil =>
      have hend : min (t + cd) D = D := by
        have : t + cd = D := by
          simpa using ht
        rw [this, min_self]
      have htD : t < D := by
        have : t + cd = D := by simpa using ht
        linarith
      simp only [processClips, hload, hend]
      refine ⟨rfl, rfl, ?_, ?_, ?_⟩
      · exact List.chain'_singleton _
      · exact List.pairwise_singleton _ _
      · intro e he
        simp only [List.mem_singleton] at he
        subst he
        exact ⟨le_refl _, htD, le_refl _⟩
    | cons r rs =>
      have hlen : ((r :: rs).length : ℚ) + 1 = ((f :: r :: rs).length : ℚ) := by
        push_cast [List.length_cons]
        ring
      have hlt : t + cd < D := by
        have h1 : (1 : ℚ) ≤ ((r :: rs).length : ℚ) := by
          have : 1 ≤ (r :: rs).length := by simp
          exact_mod_cast this
        nlinarith [ht, hlen]
      have hend : min (t + cd) D = t + cd := min_eq_left (le_of_lt hlt)
      have ht' : (t + cd) + ((r :: rs).length : ℚ) * cd = D := by
        rw [← ht]
        push_cast [List.length_cons]
        ring
      have IH := ih (t + cd) (by simp) (fun g hg => hok g (by simp [hg])) ht'
      obtain ⟨ihHead, ihLast, ihChain, ihPw, ihBounds⟩ := IH
      obtain ⟨x, xs, hxx⟩ : ∃ x xs,
          (processClips cd D (r :: rs) (t + cd)).2 = x :: xs := by
        cases hcase : (processClips cd D (r :: rs) (t + cd)).2 with
        | nil => rw [hcase] at ihHead; simp at ihHead
        | cons x xs => exact ⟨x, xs, rfl⟩
      rw [processClips_timeline_cons cd D t d f (r :: rs) hload, hend]
      refine ⟨rfl, ?_, ?_, ?_, ?_⟩
      · rw [hxx, List.getLast?_cons_cons, ← hxx]
        exact ihLast
      · rw [List.chain'_cons']
        refine ⟨fun y hy => ?_, ihChain⟩
        rw [Option.mem_def] at hy
        rw [hy] at ihHead
        simp only [Option.map_some'] at ihHead
        exact (Option.some.inj ihHead).symm
      · rw [List.pairwise_cons]
        refine ⟨fun e he => ?_, ihPw⟩
        have hb := ihBounds e he
        exact ⟨hb.1, show t < e.start by linarith [hb.1]⟩
      · intro e he
        rcases List.mem_cons.mp he with h | h
        · subst h
          exact ⟨le_refl _, show t < t + cd by linarith, le_of_lt hlt⟩
        · have hb := ihBounds e h
          exact ⟨show t ≤ e.start by linarith [hb.1], hb.2.1, hb.2.2⟩

/-- C1: with at least one footage clip, all clips loading successfully and a
positive total duration `D`, the persisted timeline is non-empty, starts at
0, ends exactly at `D`, consecutive entries are contiguous
(`end = next.start`), entries are strictly sorted by `start` and pairwise
non-overlapping, and every entry has positive extent. -/
theorem c1_timeline_invariants (width height : ℕ)
    (footage_clips : List Footage) (D : ℚ) (hne : footage_clips ≠ [])
    (hok : ∀ f ∈ footage_clips, f.load ≠ none) (hD : 0 < D) :
    ∃ tl, (build_video_track width height footage_clips D).persisted =
        some tl ∧
      tl ≠ [] ∧
      tl.head?.map TimelineEntry.start = some 0 ∧
      tl.getLast?.map (fun e => e.«end») = some D ∧
      List.Chain' (fun a b => a.«end» = b.start) tl ∧
      tl.Pairwise (fun a b => a.«end» ≤ b.start ∧ a.start < b.start) ∧
      ∀ e ∈ tl, e.start < e.«end» := by
  have hisEmpty : footage_clips.isEmpty = false := by
    simpa [List.isEmpty_iff] using hne
  have hlenpos : (0 : ℚ) < footage_clips.length := by
    exact_mod_cast List.length_pos.mpr hne
  have hcd : 0 < D / footage_clips.length := div_pos hD hlenpos
  have ht : (0 : ℚ) + footage_clips.length * (D / footage_clips.length) = D := by
    field_simp
  have hP := processClips_timeline (D / footage_clips.length) D hcd
    footage_clips 0 hne hok ht
  have hpers : (build_video_track width height footage_clips D).persisted =
      some (processClips (D / footage_clips.length) D footage_clips 0).2 := by
    simp [build_video_track, hisEmpty, apply_ite BuildResult.persisted]
  refine ⟨_, hpers, ?_, hP.1, hP.2.1, hP.2.2.1, hP.2.2.2.1,
    fun e he => (hP.2.2.2.2 e he).2.1⟩
  intro hnil
  rw [hnil] at hP
  simp at hP

/-- C1 witness: two successfully loading clips over total duration 10. -/
theorem c1_timeline_invariants_witness :
    ∃ tl, (build_video_track 1080 1920
        [⟨"a.mp4", "cat", some 5⟩, ⟨"b.mp4", "dog", some 1⟩] 10).persisted =
        some tl ∧
      tl ≠ [] ∧
      tl.head?.map TimelineEntry.start = some 0 ∧
      tl.getLast?.map (fun e => e.«end») = some 10 ∧
      List.Chain' (fun a b => a.«end» = b.start) tl ∧
      tl.Pairwise (fun a b => a.«end» ≤ b.start ∧ a.start < b.start) ∧
      ∀ e ∈ tl, e.start < e.«end» :=
  c1_timeline_invariants 1080 1920
    [⟨"a.mp4", "cat", some 5⟩, ⟨"b.mp4", "dog", some 1⟩] 10
    (by simp) (by decide) (by norm_num)

/-- The grouping loop loses no token: its groups concatenate to the pending
group followed by the remaining input. -/
lemma groupLoop_join (m : ℕ) :
    ∀ (wts cur : List WordTs), (groupLoop m wts cur).flatten = cur ++ wts := by
  intro wts
  induction wts with
  | nil =>
    intro cur
    cases hc : cur.isEmpty
    · simp [groupLoop, hc]
    · simp [groupLoop, hc, List.isEmpty_iff.mp hc]
  | cons ts rest ih =>
    intro cur
    simp only [groupLoop]
    split
    · simp [ih []]
    · rw [ih (cur ++ [ts])]
      simp

/-- Every group the grouping loop emits is non-empty and no larger than
`max_words`, provided the pending group is below the cap. -/
lemma groupLoop_sizes (m : ℕ) (hm : 0 < m) :
    ∀ (wts cur : List WordTs), cur.length < m →
      ∀ g ∈ groupLoop m wts cur, 0 < g.length ∧ g.length ≤ m := by
  intro wts
  induction wts with
  | nil =>
    intro cur hcur g hg
    cases hc : cur.isEmpty
    · rw [groupLoop, hc] at hg
      simp only [Bool.false_eq_true, if_false, List.mem_singleton] at hg
      subst hg
      have : g ≠ [] := fun h => by simp [h] at hc
      exact ⟨List.length_pos.mpr this, le_of_lt hcur⟩
    · rw [groupLoop, hc] at hg
      simp at hg
  | cons ts rest ih =>
    intro cur hcur g hg
    rw [groupLoop] at hg
    rcases hcond : (endsSentencePunct ts.word || decide (m ≤ (cur ++ [ts]).length))
      with _ | _
    · rw [hcond] at hg
      simp only [Bool.false_eq_true, if_false] at hg
      have hlt : (cur ++ [ts]).length < m := by
        have := hcond
        simp only [Bool.or_eq_false_iff, decide_eq_false_iff_not, not_le] at this
        exact this.2
      exact ih (cur ++ [ts]) hlt g hg
    · rw [hcond] at hg
      simp only [if_true, List.mem_cons] at hg
      rcases hg with hg | hg
      · subst hg
        constructor
        · simp
        · have : cur.length + 1 ≤ m := hcur
          simpa using this
      · exact ih [] (by simpa using hm) g hg

/-- Indexing into a list with one element appended: positions inside the
prefix read the prefix, the final position reads the appended element. -/
lemma get_append_last {α : Type} (l : List α) (a : α) :
    ∀ (i : ℕ) (h : i < (l ++ [a]).length),
      (l ++ [a]).get ⟨i, h⟩ =
        if hi : i < l.length then l.get ⟨i, hi⟩ else a := by
  induction l with
  | nil =>
    intro i h
    cases i with
    | zero => simp
    | succ n =>
      simp only [List.nil_append, List.length_singleton] at h
      omega
  | cons b l ihl =>
    intro i h
    cases i with
    | zero => simp
    | succ n =>
      have h' : n < (l ++ [a]).length := by
        simpa using Nat.lt_of_succ_lt_succ (by simpa using h)
      have hget : ((b :: l) ++ [a]).get ⟨n + 1, h⟩ = (l ++ [a]).get ⟨n, h'⟩ :=
        rfl
      rw [hget, ihl n h']
      by_cases hn : n < l.length
      · rw [dif_pos hn, dif_pos (by simpa using Nat.succ_lt_succ hn)]
        rfl
      · rw [dif_neg hn,
          dif_neg (fun hh => hn (Nat.lt_of_succ_lt_succ (by simpa using hh)))]

/-- Closure discipline of the grouping loop: provided every token already in
the pending group was added without triggering closure, (a) every emitted
group except possibly the last ends with a sentence-punctuated token or has
exactly `max_words` tokens, and (b) no token strictly inside any emitted
group ends with sentence punctuation or sits at the cap — groups close
exactly at the two closing conditions. -/
lemma groupLoop_closure (m : ℕ) (hm : 0 < m) :
    ∀ (wts cur : List WordTs),
      (∀ (i : ℕ) (h : i < cur.length),
        endsSentencePunct (cur.get ⟨i, h⟩).word = false ∧ i + 1 < m) →
      (∀ g ∈ (groupLoop m wts cur).dropLast,
        (g.getLast?.map fun ts => endsSentencePunct ts.word) = some true ∨
          g.length = m) ∧
      (∀ g ∈ groupLoop m wts cur, ∀ (i : ℕ) (h : i + 1 < g.length),
        endsSentencePunct (g.get ⟨i, Nat.lt_of_succ_lt h⟩).word = false ∧
          i + 1 < m) := by
  intro wts
  induction wts with
  | nil =>
    intro cur hpend
    constructor
    · intro g hg
      rw [groupLoop] at hg
      cases hc : cur.isEmpty
      · rw [hc] at hg
        simp at hg
      · rw [hc] at hg
        simp at hg
    · intro g hg i h
      rw [groupLoop] at hg
      cases hc : cur.isEmpty
      · rw [hc] at hg
        simp only [Bool.false_eq_true, if_false, List.mem_singleton] at hg
        subst hg
        exact hpend i (Nat.lt_of_succ_lt h)
      · rw [hc] at hg
        simp at hg
  | cons ts rest ih =>
    intro cur hpend
    rw [groupLoop]
    by_cases hclose :
        (endsSentencePunct ts.word || decide (m ≤ (cur ++ [ts]).length)) = true
    · rw [if_pos hclose]
      have hIH := ih [] (by intro i h; simp at h)
      have hcurlen : (cur ++ [ts]).length ≤ m := by
        cases cur with
        | nil => simpa using hm
        | cons a l =>
          have h1 := (hpend (a :: l).length.pred (by simp)).2
          simp only [List.length_cons, Nat.pred_succ] at h1
          simp only [List.length_append, List.length_cons, List.length_nil]
          omega
      have htrig : endsSentencePunct ts.word = true ∨
          (cur ++ [ts]).length = m := by
        rcases (by simpa using hclose :
            endsSentencePunct ts.word = true ∨ m ≤ (cur ++ [ts]).length)
          with h | h
        · exact Or.inl h
        · exact Or.inr (le_antisymm hcurlen h)
      constructor
      · intro g hg
        cases hout : groupLoop m rest [] with
        | nil =>
          rw [hout] at hg
          simp at hg
        | cons o os =>
          rw [hout] at hg
          rw [show ((cur ++ [ts]) :: o :: os).dropLast =
            (cur ++ [ts]) :: (o :: os).dropLast from rfl] at hg
          rcases List.mem_cons.mp hg with hg | hg
          · subst hg
            rcases htrig with h | h
            · left
              rw [List.getLast?_concat]
              simp [h]
            · exact Or.inr h
          · refine hIH.1 g ?_
            rw [hout]
            exact hg
      · intro g hg i h
        rcases List.mem_cons.mp hg with hg | hg
        · subst hg
          have hi : i < cur.length := by
            simp only [List.length_append, List.length_cons,
              List.length_nil] at h
            omega
          rw [get_append_last cur ts i (Nat.lt_of_succ_lt h), dif_pos hi]
          exact hpend i hi
        · exact hIH.2 g hg i h
    · rw [if_neg hclose]
      have hnc : endsSentencePunct ts.word = false ∧
          (cur ++ [ts]).length < m := by
        have := hclose
        simp only [Bool.or_eq_true, decide_eq_true_eq, not_or,
          Bool.not_eq_true, not_le] at this
        exact this
      refine ih (cur ++ [ts]) ?_
      intro i hi
      rw [get_append_last cur ts i hi]
      by_cases hii : i < cur.length
      · rw [dif_pos hii]
        exact hpend i hii
      · rw [dif_neg hii]
        have hieq : i = cur.length := by
          simp only [List.length_append, List.length_cons,
            List.length_nil] at hi
          omega
        refine ⟨hnc.1, ?_⟩
        have := hnc.2
        simp only [List.length_append, List.length_cons, List.length_nil]
          at this
        omega

/-- When no token ends a sentence, the grouping loop emits
`ceil(total / max_words)` groups: closing happens only via the size cap. -/
lemma groupLoop_count (m : ℕ) (hm : 0 < m) :
    ∀ (wts cur : List WordTs), cur.length < m →
      (∀ ts ∈ wts, endsSentencePunct ts.word = false) →
      (groupLoop m wts cur).length =
        if cur.length + wts.length = 0 then 0
        else (cur.length + wts.length - 1) / m + 1 := by
  intro wts
  induction wts with
  | nil =>
    intro cur hcur _
    cases hc : cur.isEmpty
    · have hne : cur ≠ [] := fun h => by simp [h] at hc
      have hpos : 0 < cur.length := List.length_pos.mpr hne
      rw [groupLoop, hc]
      simp only [Bool.false_eq_true, if_false, List.length_singleton,
        List.length_nil, Nat.add_zero]
      rw [if_neg (by omega)]
      rw [Nat.div_eq_of_lt (by omega)]
    · have hnil : cur = [] := List.isEmpty_iff.mp hc
      subst hnil
      simp [groupLoop]
  | cons ts rest ih =>
    intro cur hcur hnp
    have hpunct : endsSentencePunct ts.word = false := hnp ts (by simp)
    have hnprest : ∀ t ∈ rest, endsSentencePunct t.word = false :=
      fun t htm => hnp t (by simp [htm])
    rw [groupLoop]
    by_cases hcap : m ≤ (cur ++ [ts]).length
    · have hcond : (endsSentencePunct ts.word ||
          decide (m ≤ (cur ++ [ts]).length)) = true := by
        rw [Bool.or_eq_true, decide_eq_true_eq]
        exact Or.inr hcap
      rw [hcond]
      simp only [if_true, List.length_cons]
      rw [ih [] (by simpa using hm) hnprest]
      have hc' : m ≤ cur.length + 1 := by simpa using hcap
      have hmeq : m = cur.length + 1 := le_antisymm hc' (by omega)
      simp only [List.length_nil, Nat.zero_add]
      rcases Nat.eq_zero_or_pos rest.length with hr | hr
      · rw [hr]
        rw [if_pos rfl, if_neg (by omega)]
        have : cur.length + (0 + 1) - 1 = m - 1 := by omega
        rw [this, Nat.div_eq_of_lt (by omega)]
      · rw [if_neg (by omega), if_neg (by omega)]
        have h1 : cur.length + (rest.length + 1) - 1 = (rest.length - 1) + m := by
          omega
        rw [h1, Nat.add_div_right _ hm]
    · have hcond : (endsSentencePunct ts.word ||
          decide (m ≤ (cur ++ [ts]).length)) = false := by
        rw [hpunct, Bool.false_or, decide_eq_false_iff_not]
        exact hcap
      rw [hcond]
      simp only [Bool.false_eq_true, if_false]
      have hlt : (cur ++ [ts]).length < m := by
        simp only [List.length_append, List.length_cons, List.length_nil]
          at hcap ⊢
        omega
      rw [ih (cur ++ [ts]) hlt hnprest]
      have h2 : (cur ++ [ts]).length + rest.length =
          cur.length + (ts :: rest).length := by
        simp only [List.length_append, List.length_cons, List.length_nil]
        omega
      rw [h2]

/-- C6: the sentence grouping loses no token and caps every group at
`max_words`; a group closes exactly when its last token ends with `.`, `!`
or `?` or the group has reached `max_words` tokens — every group except
possibly the flushed final one ends at such a trigger, and no token strictly
inside a group ends a sentence or sits at the cap; and with the default
cap 4 and ten tokens none of which ends a sentence it emits exactly
3 groups. -/
theorem c6_grouping (wts : List WordTs) (m : ℕ) (hm : 0 < m) :
    ((group_into_sentences wts m).flatten = wts ∧
      ∀ g ∈ group_into_sentences wts m, 0 < g.length ∧ g.length ≤ m) ∧
    (∀ g ∈ (group_into_sentences wts m).dropLast,
      (g.getLast?.map fun ts => endsSentencePunct ts.word) = some true ∨
        g.length = m) ∧
    (∀ g ∈ group_into_sentences wts m, ∀ (i : ℕ) (h : i + 1 < g.length),
      endsSentencePunct (g.get ⟨i, Nat.lt_of_succ_lt h⟩).word = false ∧
        i + 1 < m) ∧
    ((∀ ts ∈ wts, endsSentencePunct ts.word = false) → m = 4 →
      wts.length = 10 → (group_into_sentences wts m).length = 3) := by
  have hclosure := groupLoop_closure m hm wts [] (by intro i h; simp at h)
  unfold group_into_sentences
  refine ⟨⟨by simpa using groupLoop_join m wts [],
    groupLoop_sizes m hm wts [] (by simpa using hm)⟩,
    hclosure.1, hclosure.2, ?_⟩
  intro hnp hm4 hlen
  rw [groupLoop_count m hm wts [] (by simpa using hm) hnp]
  subst hm4
  rw [hlen]
  norm_num

/-- The accounted width of a single-word line is that word's estimate. -/
lemma lineWidth_singleton (fs : ℕ) (sw : ℤ) (w : List Char) :
    lineWidth fs sw [w] = estimateWidthChars w fs := by
  simp [lineWidth]

/-- Appending a word to a non-empty line adds one space estimate and the
word's estimate to the accounted width. -/
lemma lineWidth_append (fs : ℕ) (sw : ℤ) (g : List (List Char)) (hg : g ≠ [])
    (w : List Char) :
    lineWidth fs sw (g ++ [w]) =
      lineWidth fs sw g + sw + estimateWidthChars w fs := by
  unfold lineWidth
  have hlen : 1 ≤ g.length := List.length_pos.mpr hg
  simp only [List.map_append, List.sum_append, List.length_append,
    List.map_cons, List.map_nil, List.sum_cons, List.sum_nil,
    List.length_cons, List.length_nil]
  have h1 : ((g.length + 1 - 1 : ℕ) : ℤ) = ((g.length - 1 : ℕ) : ℤ) + 1 := by
    omega
  rw [h1]
  ring

/-- Invariant of the greedy wrapping loop: every emitted line is non-empty,
and every line holding at least two words has accounted width at most
`max_width`. -/
lemma wrapLoop_props (fs : ℕ) (mw sw : ℤ) :
    ∀ (ws : List (List Char)) (lines : List (List (List Char)))
      (cur : List (List Char)) (cw : ℤ),
      (∀ g ∈ lines, 0 < g.length ∧ (2 ≤ g.length → lineWidth fs sw g ≤ mw)) →
      cw = lineWidth fs sw cur →
      (2 ≤ cur.length → cw ≤ mw) →
      ∀ g ∈ wrapLoop fs mw sw ws lines cur cw,
        0 < g.length ∧ (2 ≤ g.length → lineWidth fs sw g ≤ mw) := by
  intro ws
  induction ws with
  | nil =>
    intro lines cur cw hlines hcw hbound g hg
    rw [wrapLoop] at hg
    cases hc : cur.isEmpty
    · rw [hc] at hg
      simp only [Bool.false_eq_true, if_false, List.mem_append,
        List.mem_singleton] at hg
      rcases hg with hg | hg
      · exact hlines g hg
      · subst hg
        have hne : g ≠ [] := fun h => by simp [h] at hc
        exact ⟨List.length_pos.mpr hne, fun h2 => hcw ▸ hbound h2⟩
    · rw [hc] at hg
      simp only [if_true] at hg
      exact hlines g hg
  | cons w ws' ih =>
    intro lines cur cw hlines hcw hbound g hg
    rw [wrapLoop] at hg
    cases hc : cur.isEmpty
    · have hne : cur ≠ [] := fun h => by simp [h] at hc
      rw [hc] at hg
      simp only [Bool.false_eq_true, if_false] at hg
      by_cases hfit :
          cw + sw + estimateWidthChars w fs ≤ mw
      · rw [if_pos (by simp [hfit])] at hg
        refine ih lines (cur ++ [w]) _ hlines ?_ ?_ g hg
        · rw [lineWidth_append fs sw cur hne w, ← hcw]
        · intro _
          exact hfit
      · rw [if_neg (by simp [hfit])] at hg
        refine ih (lines ++ [cur]) [w] _ ?_ ?_ ?_ g hg
        · intro g' hg'
          rcases List.mem_append.mp hg' with h | h
          · exact hlines g' h
          · rw [List.mem_singleton] at h
            subst h
            exact ⟨List.length_pos.mpr hne, fun h2 => hcw ▸ hbound h2⟩
        · rw [lineWidth_singleton]
        · intro h2
          simp at h2
    · have hnil : cur = [] := by
        cases cur with
        | nil => rfl
        | cons a l => simp at hc
      rw [hc] at hg
      subst hnil
      rw [if_pos (by simp)] at hg
      refine ih lines [w] _ hlines ?_ ?_ g hg
      · simp [lineWidth_singleton]
      · intro h2
        simp at h2

/-- C7 (amended): every line the wrapper emits is non-empty, and every line
holding at least two words has accounted width (sum of per-word estimates
plus one space estimate between consecutive words, exactly the loop's
`current_width` bookkeeping) at most `max_width`; a word wider than
`max_width` can only ever sit alone on its line. -/
theorem c7_wrap_width_bound (text : String) (font_size : ℕ) (max_width : ℤ) :
    ∀ g ∈ wrapLines text font_size max_width,
      0 < g.length ∧
        (2 ≤ g.length →
          lineWidth font_size (estimateWidthChars [' '] font_size) g ≤
            max_width) := by
  intro g hg
  refine wrapLoop_props font_size max_width _ (pySplitChars text.toList)
    [] [] 0 (by simp) ?_ (by simp) g hg
  simp [lineWidth]

/-- C7 witness: wrapping `"hi yo"` at font size 10 with max width 300 packs
both words on one line whose accounted width is within the bound. -/
theorem c7_wrap_width_bound_witness :
    0 < ([['h', 'i'], ['y', 'o']] : List (List Char)).length ∧
      (2 ≤ ([['h', 'i'], ['y', 'o']] : List (List Char)).length →
        lineWidth 10 (estimateWidthChars [' '] 10)
          [['h', 'i'], ['y', 'o']] ≤ 300) := by
  refine c7_wrap_width_bound "hi yo" 10 300 [['h', 'i'], ['y', 'o']] ?_
  have h : wrapLines "hi yo" 10 300 = [[['h', 'i'], ['y', 'o']]] := by
    simp [wrapLines, wrapLoop, pySplitChars, isPySpace, estimateWidthChars]
    norm_num
  rw [h]
  simp

/-- C7 counterexample: wrapping `"a b"` at font size 11 with max width 18
emits the single two-word line `"a b"`, whose estimated width
`int(3 · 11 · 0.6) = 19` exceeds the max width — the per-token truncation in
the loop's bookkeeping (6 + 6 + 6 = 18 ≤ 18) undercounts the joined line's
own estimate, so the claim's per-line estimate bound fails on a multi-word
line. -/
theorem c7_counterexample :
    wrapLines "a b" 11 18 = [[['a'], ['b']]] ∧
      wrap_text_by_words "a b" 11 18 = "a b" ∧
      estimate_text_width "a b" 11 = 19 ∧ (18 : ℤ) < 19 := by
  have h1 : wrapLines "a b" 11 18 = [[['a'], ['b']]] := by
    simp [wrapLines, wrapLoop, pySplitChars, isPySpace, estimateWidthChars]
    norm_num
  refine ⟨h1, ?_, ?_, by norm_num⟩
  · rw [wrap_text_by_words, if_neg (by simp [pySplitChars, isPySpace]), h1]
    rfl
  · rw [show estimate_text_width "a b" 11 = ⌊(3 : ℚ) * (11 * (6 / 10))⌋
      from rfl]
    norm_num

/-- Splitting after a leading whitespace character just drops it. -/
lemma pySplitChars_space_cons (c : Char) (l : List Char)
    (hc : isPySpace c = true) :
    pySplitChars (c :: l) = pySplitChars l := by
  simp only [pySplitChars, hc, if_true]

/-- Splitting a whitespace-free non-empty word followed by anything: the word
absorbs the following non-space run and the rest is split recursively. -/
lemma pySplitChars_word_append (w l : List Char) (hne : w ≠ [])
    (hw : ∀ c ∈ w, isPySpace c = false) :
    pySplitChars (w ++ l) =
      (w ++ l.takeWhile (fun d => !isPySpace d)) ::
        pySplitChars (l.dropWhile (fun d => !isPySpace d)) := by
  cases w with
  | nil => exact absurd rfl hne
  | cons c w' =>
    have hc : isPySpace c = false := hw c (by simp)
    have hw' : ∀ d ∈ w', (fun d => !isPySpace d) d = true := by
      intro d hd
      simp [hw d (by simp [hd])]
    rw [List.cons_append]
    simp only [pySplitChars, hc, Bool.false_eq_true, if_false]
    rw [List.takeWhile_append_of_pos hw', List.dropWhile_append_of_pos hw']
    simp

/-- Every token of the whitespace split is a non-empty, whitespace-free run. -/
lemma pySplitChars_words_aux :
    ∀ (n : ℕ) (l : List Char), l.length ≤ n →
      ∀ w ∈ pySplitChars l, w ≠ [] ∧ ∀ c ∈ w, isPySpace c = false := by
  intro n
  induction n with
  | zero =>
    intro l hl w hw
    have : l = [] := List.length_eq_zero.mp (Nat.le_zero.mp hl)
    subst this
    simp [pySplitChars] at hw
  | succ n ihn =>
    intro l hl w hw
    cases l with
    | nil => simp [pySplitChars] at hw
    | cons c cs =>
      by_cases hc : isPySpace c = true
      · rw [pySplitChars_space_cons c cs hc] at hw
        exact ihn cs (by simpa using Nat.le_of_succ_le_succ hl) w hw
      · have hcf : isPySpace c = false := by simpa using hc
        simp only [pySplitChars, hcf, Bool.false_eq_true, if_false,
          List.mem_cons] at hw
        rcases hw with hw | hw
        · subst hw
          refine ⟨by simp, ?_⟩
          intro d hd
          rcases List.mem_cons.mp hd with hd | hd
          · subst hd; exact hcf
          · have := List.mem_takeWhile_imp hd
            simpa using this
        · have hlen : (cs.dropWhile fun d => !isPySpace d).length ≤ n := by
            have h1 := (List.dropWhile_sublist
              (p := fun d => !isPySpace d) (l := cs)).length_le
            have h2 : cs.length ≤ n := by simpa using Nat.le_of_succ_le_succ hl
            omega
          exact ihn _ hlen w hw

/-- Every token of the whitespace split is a non-empty, whitespace-free run. -/
lemma pySplitChars_words (l : List Char) :
    ∀ w ∈ pySplitChars l, w ≠ [] ∧ ∀ c ∈ w, isPySpace c = false :=
  pySplitChars_words_aux l.length l (le_refl _)

/-- Splitting a word list joined by a single whitespace separator, followed by
nothing or by a whitespace-led remainder, recovers the words then splits the
remainder. -/
lemma pySplitChars_joinSep_space (s : Char) (hs : isPySpace s = true) :
    ∀ ws : List (List Char),
      (∀ w ∈ ws, w ≠ [] ∧ ∀ c ∈ w, isPySpace c = false) →
      ∀ l : List Char, (l = [] ∨ ∃ c l', l = c :: l' ∧ isPySpace c = true) →
      pySplitChars (joinSep s ws ++ l) = ws ++ pySplitChars l := by
  intro ws
  induction ws with
  | nil =>
    intro _ l _
    simp [joinSep]
  | cons w ws' ih =>
    intro hprops l hl
    have hwne := (hprops w (by simp)).1
    have hwc := (hprops w (by simp)).2
    cases ws' with
    | nil =>
      rw [show joinSep s [w] = w from rfl]
      rw [pySplitChars_word_append w l hwne hwc]
      rcases hl with hl | ⟨c, l', hl, hc⟩
      · subst hl
        simp [pySplitChars]
      · subst hl
        rw [List.takeWhile_cons_of_neg (by simp [hc]),
          List.dropWhile_cons_of_neg (by simp [hc])]
        simp
    | cons w2 ws'' =>
      rw [show joinSep s (w :: w2 :: ws'') =
        w ++ s :: joinSep s (w2 :: ws'') from rfl]
      rw [show (w ++ s :: joinSep s (w2 :: ws'')) ++ l =
        w ++ s :: (joinSep s (w2 :: ws'') ++ l) by simp]
      rw [pySplitChars_word_append w _ hwne hwc]
      rw [List.takeWhile_cons_of_neg (by simp [hs]),
        List.dropWhile_cons_of_neg (by simp [hs])]
      rw [pySplitChars_space_cons s _ hs]
      rw [ih (fun v hv => hprops v (by simp [hv])) l hl]
      simp

/-- Splitting the full two-level join (words joined by spaces, lines joined
by newlines) recovers the concatenation of the word groups. -/
lemma pySplitChars_join_groups :
    ∀ gs : List (List (List Char)),
      (∀ g ∈ gs, ∀ w ∈ g, w ≠ [] ∧ ∀ c ∈ w, isPySpace c = false) →
      pySplitChars (joinSep '\n' (gs.map (joinSep ' '))) = gs.flatten := by
  intro gs
  induction gs with
  | nil =>
    intro _
    simp [joinSep, pySplitChars]
  | cons g gs' ih =>
    intro hwords
    cases gs' with
    | nil =>
      simp only [List.map_cons, List.map_nil]
      rw [show joinSep '\n' [joinSep ' ' g] = joinSep ' ' g from rfl]
      have := pySplitChars_joinSep_space ' ' (by decide) g
        (hwords g (by simp)) [] (Or.inl rfl)
      simpa [pySplitChars] using this
    | cons g2 gs'' =>
      simp only [List.map_cons]
      rw [show joinSep '\n' (joinSep ' ' g :: joinSep ' ' g2 ::
          (gs''.map (joinSep ' '))) =
        joinSep ' ' g ++ '\n' ::
          joinSep '\n' (joinSep ' ' g2 :: gs''.map (joinSep ' ')) from rfl]
      rw [pySplitChars_joinSep_space ' ' (by decide) g (hwords g (by simp)) _
        (Or.inr ⟨'\n', _, rfl, by decide⟩)]
      rw [pySplitChars_space_cons '\n' _ (by decide)]
      have := ih (fun g' hg' => hwords g' (by simp [hg']))
      simp only [List.map_cons] at this
      rw [this]
      simp

/-- The wrapping loop redistributes words without loss: the emitted groups
concatenate to the already-closed lines, the pending line, and the remaining
words. -/
lemma wrapLoop_join (fs : ℕ) (mw sw : ℤ) :
    ∀ (ws : List (List Char)) (lines : List (List (List Char)))
      (cur : List (List Char)) (cw : ℤ),
      (wrapLoop fs mw sw ws lines cur cw).flatten =
        lines.flatten ++ cur ++ ws := by
  intro ws
  induction ws with
  | nil =>
    intro lines cur cw
    rw [wrapLoop]
    cases hc : cur.isEmpty
    · simp
    · have hnil : cur = [] := by
        cases cur with
        | nil => rfl
        | cons a l => simp at hc
      subst hnil
      simp
  | cons w ws' ih =>
    intro lines cur cw
    rw [wrapLoop]
    split <;> split <;> rw [ih] <;> simp

/-- C10: for every input, splitting the wrapper's output on whitespace yields
exactly the input's whitespace-delimited token list — no word is dropped,
duplicated, reordered or altered. -/
theorem c10_wrap_preserves_words (text : String) (font_size : ℕ)
    (max_width : ℤ) :
    pySplit (wrap_text_by_words text font_size max_width) = pySplit text := by
  by_cases hempty : (pySplitChars text.toList).isEmpty = true
  · rw [wrap_text_by_words, if_pos hempty]
  · rw [wrap_text_by_words, if_neg hempty]
    have hjoin : (wrapLines text font_size max_width).flatten =
        pySplitChars text.toList := by
      have := wrapLoop_join font_size max_width
        (estimateWidthChars [' '] font_size) (pySplitChars text.toList) [] [] 0
      simpa [wrapLines] using this
    have hwords : ∀ g ∈ wrapLines text font_size max_width, ∀ w ∈ g,
        w ≠ [] ∧ ∀ c ∈ w, isPySpace c = false := by
      intro g hgm w hw
      have hwmem : w ∈ (wrapLines text font_size max_width).flatten :=
        List.mem_flatten.mpr ⟨g, hgm, hw⟩
      rw [hjoin] at hwmem
      exact pySplitChars_words _ w hwmem
    unfold pySplit
    rw [show (String.mk (joinSep '\n'
        ((wrapLines text font_size max_width).map (joinSep ' ')))).toList =
      joinSep '\n' ((wrapLines text font_size max_width).map (joinSep ' '))
      from rfl]
    rw [pySplitChars_join_groups _ hwords, hjoin]

/-- A non-empty string has positive length. -/
lemma string_length_pos {p : String} (h : p ≠ "") : 0 < p.length := by
  obtain ⟨l⟩ := p
  cases l with
  | nil => exact absurd rfl h
  | cons c cs => simp

/-- Every part produced by the paragraph-break split is non-empty. -/
lemma paraParts_length_pos (word : String) :
    ∀ p ∈ paraParts word, 0 < p.length := by
  intro p hp
  have hne : p ≠ "" := by
    have := (List.mem_filter.mp hp).2
    simpa using this
  exact string_length_pos hne

/-- Invariants of the paragraph-part distribution loop: it emits one record
per part with the original interval shared out proportionally to character
count, contiguously, monotonically and without leaving `[t, t + d·S/total]`
(`S` the total character count of the parts). -/
lemma distributeParts_props (d : ℚ) (hd : 0 ≤ d) (total n : ℕ)
    (ht : 0 < total) :
    ∀ (parts : List String) (t : ℚ),
      (distributeParts d total n parts t).map WordTs.word = parts ∧
      List.Chain' (fun a b => a.«end» = b.start)
        (distributeParts d total n parts t) ∧
      (parts ≠ [] →
        (distributeParts d total n parts t).head?.map WordTs.start = some t) ∧
      (parts ≠ [] →
        (distributeParts d total n parts t).getLast?.map (fun e => e.«end») =
          some (t + d * ((parts.map String.length).sum : ℚ) / total)) ∧
      ((distributeParts d total n parts t).map
          (fun e => e.«end» - e.start)).sum =
        d * ((parts.map String.length).sum : ℚ) / total ∧
      ∀ e ∈ distributeParts d total n parts t,
        t ≤ e.start ∧ e.start ≤ e.«end» ∧
          e.«end» ≤ t + d * ((parts.map String.length).sum : ℚ) / total := by
  intro parts
  induction parts with
  | nil =>
    intro t
    refine ⟨rfl, by simp [distributeParts], by simp, by simp, by
      simp [distributeParts], by simp [distributeParts]⟩
  | cons p ps ih =>
    intro t
    have hpd : (if 0 < total then d * ((p.length : ℚ) / total)
        else d / n) = d * (p.length : ℚ) / total := by
      rw [if_pos ht, mul_div_assoc]
    have hout : distributeParts d total n (p :: ps) t =
        ⟨p, t, t + d * (p.length : ℚ) / total⟩ ::
          distributeParts d total n ps (t + d * (p.length : ℚ) / total) := by
      rw [distributeParts]
      rw [hpd]
    obtain ⟨ihMap, ihChain, ihHead, ihLast, ihSum, ihBounds⟩ :=
      ih (t + d * (p.length : ℚ) / total)
    have hSall : ((((p :: ps).map String.length).sum : ℕ) : ℚ) =
        (p.length : ℚ) + (((ps.map String.length).sum : ℕ) : ℚ) := by
      push_cast [List.map_cons, List.sum_cons]
      ring
    have hpd0 : 0 ≤ d * (p.length : ℚ) / total := by positivity
    have hSps0 : 0 ≤ d * (((ps.map String.length).sum : ℕ) : ℚ) / total := by
      positivity
    have harith : t + d * (p.length : ℚ) / total +
        d * (((ps.map String.length).sum : ℕ) : ℚ) / total =
        t + d * ((((p :: ps).map String.length).sum : ℕ) : ℚ) / total := by
      rw [hSall]
      ring
    refine ⟨?_, ?_, ?_, ?_, ?_, ?_⟩
    · rw [hout, List.map_cons, ihMap]
    · rw [hout, List.chain'_cons']
      refine ⟨fun y hy => ?_, ihChain⟩
      cases hps : ps with
      | nil =>
        subst hps
        simp [distributeParts] at hy
      | cons q qs =>
        have hne : ps ≠ [] := by rw [hps]; simp
        rw [Option.mem_def] at hy
        have := ihHead hne
        rw [hy] at this
        simp only [Option.map_some'] at this
        exact (Option.some.inj this).symm
    · intro _
      rw [hout]
      rfl
    · intro _
      rw [hout]
      cases hps : ps with
      | nil =>
        subst hps
        simp only [distributeParts, List.getLast?_singleton, Option.map_some']
        rw [show (([p].map String.length).sum : ℚ) = (p.length : ℚ) by
          push_cast [List.map_cons, List.map_nil, List.sum_cons, List.sum_nil]
          ring]
      | cons q qs =>
        have hne : ps ≠ [] := by rw [hps]; simp
        rw [← hps]
        obtain ⟨x, xs, hxx⟩ : ∃ x xs,
            distributeParts d total n ps
              (t + d * (p.length : ℚ) / total) = x :: xs := by
          cases hcase : distributeParts d total n ps
              (t + d * (p.length : ℚ) / total) with
          | nil =>
            have := ihHead hne
            rw [hcase] at this
            simp at this
          | cons x xs => exact ⟨x, xs, rfl⟩
        rw [hxx, List.getLast?_cons_cons, ← hxx]
        rw [ihLast hne]
        rw [Option.some.injEq]
        exact harith
    · rw [hout, List.map_cons, List.sum_cons, ihSum]
      have : (⟨p, t, t + d * (p.length : ℚ) / total⟩ : WordTs).«end» -
          (⟨p, t, t + d * (p.length : ℚ) / total⟩ : WordTs).start =
          d * (p.length : ℚ) / total := by
        simp
      rw [this, hSall]
      ring
    · intro e he
      rw [hout, List.mem_cons] at he
      rcases he with he | he
      · subst he
        refine ⟨le_refl _, by simpa using hpd0, ?_⟩
        have : t + d * (p.length : ℚ) / total ≤
            t + d * (p.length : ℚ) / total +
              d * (((ps.map String.length).sum : ℕ) : ℚ) / total := by
          linarith
        calc (⟨p, t, t + d * (p.length : ℚ) / total⟩ : WordTs).«end»
            = t + d * (p.length : ℚ) / total := rfl
          _ ≤ _ := by rw [← harith] at *; linarith
      · have hb := ihBounds e he
        refine ⟨by linarith [hb.1, hpd0], hb.2.1, ?_⟩
        have := hb.2.2
        rw [harith] at this
        exact this

/-- Under the paragraph-break hypotheses, `processTimestamp` takes the
distribution branch. -/
lemma processTimestamp_pb (ts : WordTs)
    (hb : containsParaBreak ts.word.toList = true)
    (hp : 1 < (paraParts ts.word).length) :
    processTimestamp ts =
      distributeParts (ts.«end» - ts.start)
        (((paraParts ts.word).map String.length).sum)
        (paraParts ts.word).length (paraParts ts.word) ts.start := by
  simp only [processTimestamp, hb, hp, eq_self_iff_true, if_true]

/-- C4: preprocessing the timestamp
`{word := "customers.\n\nFinally,", start := 1, end := 2}` yields exactly the
two entries `("customers.", 1, 14/9)` and `("Finally,", 14/9, 2)` (disjoint,
inside `[1, 2]`, spans `5/9 + 4/9 = 1`); and in general a token embedding a
paragraph break that splits into at least two non-empty parts is replaced by
one entry per part, with the original interval distributed proportionally to
the parts' character counts: contiguous, monotone, starting at `start`,
ending at `end`, spans summing to the original span, and all inside
`[start, end]`. -/
theorem c4_paragraph_split :
    (processTimestamp ⟨"customers.\n\nFinally,", 1, 2⟩ =
        [⟨"customers.", 1, 14 / 9⟩, ⟨"Finally,", 14 / 9, 2⟩]) ∧
    ∀ ts : WordTs, containsParaBreak ts.word.toList = true →
      1 < (paraParts ts.word).length → ts.start ≤ ts.«end» →
      (processTimestamp ts).map WordTs.word = paraParts ts.word ∧
      List.Chain' (fun a b => a.«end» = b.start) (processTimestamp ts) ∧
      (processTimestamp ts).head?.map WordTs.start = some ts.start ∧
      (processTimestamp ts).getLast?.map (fun e => e.«end») =
        some ts.«end» ∧
      ((processTimestamp ts).map (fun e => e.«end» - e.start)).sum =
        ts.«end» - ts.start ∧
      ∀ e ∈ processTimestamp ts,
        ts.start ≤ e.start ∧ e.start ≤ e.«end» ∧ e.«end» ≤ ts.«end» := by
  constructor
  · simp [processTimestamp, containsParaBreak, paraParts, splitParagraphs,
      pyStripChars, isPySpace, distributeParts]
    norm_num [show "customers.".length = 10 from rfl,
      show "Finally,".length = 8 from rfl]
  · intro ts hb hp hse
    have hnn : (paraParts ts.word) ≠ [] := by
      intro h
      rw [h] at hp
      simp at hp
    have htot : 0 < ((paraParts ts.word).map String.length).sum := by
      cases hpp : paraParts ts.word with
      | nil => rw [hpp] at hp; simp at hp
      | cons q qs =>
        have hq : 0 < q.length :=
          paraParts_length_pos ts.word q (by rw [hpp]; exact List.mem_cons_self q qs)
        simp only [List.map_cons, List.sum_cons]
        omega
    have hd : 0 ≤ ts.«end» - ts.start := by linarith
    have hSQ : ((((paraParts ts.word).map String.length).sum : ℕ) : ℚ) ≠ 0 :=
      Nat.cast_ne_zero.mpr (Nat.pos_iff_ne_zero.mp htot)
    have hcancel : ts.start + (ts.«end» - ts.start) *
        ((((paraParts ts.word).map String.length).sum : ℕ) : ℚ) /
        ((((paraParts ts.word).map String.length).sum : ℕ) : ℚ) = ts.«end» := by
      rw [mul_div_assoc, div_self hSQ, mul_one]
      ring
    obtain ⟨hMap, hChain, hHead, hLast, hSum, hBounds⟩ :=
      distributeParts_props (ts.«end» - ts.start) hd
        (((paraParts ts.word).map String.length).sum)
        (paraParts ts.word).length htot (paraParts ts.word) ts.start
    rw [processTimestamp_pb ts hb hp]
    refine ⟨hMap, hChain, hHead hnn, ?_, ?_, ?_⟩
    · rw [hLast hnn, Option.some.injEq]
      exact hcancel
    · rw [hSum]
      rw [mul_div_assoc, div_self hSQ, mul_one]
    · intro e he
      have hbnd := hBounds e he
      refine ⟨hbnd.1, hbnd.2.1, ?_⟩
      have := hbnd.2.2
      rw [hcancel] at this
      exact this

/-- C4 witness: the paragraph-break token `"ab\n\ncd"` over `[0, 1]`. -/
theorem c4_paragraph_split_witness :
    (processTimestamp ⟨"ab\n\ncd", 0, 1⟩).map WordTs.word =
        paraParts "ab\n\ncd" ∧
      List.Chain' (fun a b => a.«end» = b.start)
        (processTimestamp ⟨"ab\n\ncd", 0, 1⟩) ∧
      (processTimestamp ⟨"ab\n\ncd", 0, 1⟩).head?.map WordTs.start =
        some 0 ∧
      (processTimestamp ⟨"ab\n\ncd", 0, 1⟩).getLast?.map (fun e => e.«end») =
        some 1 ∧
      ((processTimestamp ⟨"ab\n\ncd", 0, 1⟩).map
          (fun e => e.«end» - e.start)).sum = 1 - 0 ∧
      ∀ e ∈ processTimestamp ⟨"ab\n\ncd", 0, 1⟩,
        (0 : ℚ) ≤ e.start ∧ e.start ≤ e.«end» ∧ e.«end» ≤ 1 := by
  have h := c4_paragraph_split.2 ⟨"ab\n\ncd", 0, 1⟩ (by decide) (by decide)
    (by norm_num)
  exact ⟨h.1, h.2.1, h.2.2.1, h.2.2.2.1, by simpa using h.2.2.2.2.1,
    h.2.2.2.2.2⟩

/-- C6 witness: a punctuated five-token input exercising the closure
characterization, and ten unpunctuated tokens with the default cap 4
exercising the group count. -/
theorem c6_grouping_witness :
    (group_into_sentences
        [⟨"Hi.", 0, 0⟩, ⟨"a", 0, 0⟩, ⟨"b", 0, 0⟩, ⟨"c", 0, 0⟩, ⟨"d", 0, 0⟩]
        4).flatten =
      [⟨"Hi.", 0, 0⟩, ⟨"a", 0, 0⟩, ⟨"b", 0, 0⟩, ⟨"c", 0, 0⟩,
        ⟨"d", 0, 0⟩] ∧
    (∀ g ∈ (group_into_sentences
        [⟨"Hi.", 0, 0⟩, ⟨"a", 0, 0⟩, ⟨"b", 0, 0⟩, ⟨"c", 0, 0⟩, ⟨"d", 0, 0⟩]
        4).dropLast,
      (g.getLast?.map fun ts => endsSentencePunct ts.word) = some true ∨
        g.length = 4) ∧
    (group_into_sentences
      [⟨"the", 0, 0⟩, ⟨"quick", 0, 0⟩, ⟨"brown", 0, 0⟩, ⟨"fox", 0, 0⟩,
       ⟨"jumps", 0, 0⟩, ⟨"over", 0, 0⟩, ⟨"the", 0, 0⟩, ⟨"lazy", 0, 0⟩,
       ⟨"dog", 0, 0⟩, ⟨"again", 0, 0⟩] 4).length = 3 := by
  have h1 := c6_grouping
    [⟨"Hi.", 0, 0⟩, ⟨"a", 0, 0⟩, ⟨"b", 0, 0⟩, ⟨"c", 0, 0⟩, ⟨"d", 0, 0⟩]
    4 (by norm_num)
  have h2 := c6_grouping
    [⟨"the", 0, 0⟩, ⟨"quick", 0, 0⟩, ⟨"brown", 0, 0⟩, ⟨"fox", 0, 0⟩,
     ⟨"jumps", 0, 0⟩, ⟨"over", 0, 0⟩, ⟨"the", 0, 0⟩, ⟨"lazy", 0, 0⟩,
     ⟨"dog", 0, 0⟩, ⟨"again", 0, 0⟩] 4 (by norm_num)
  exact ⟨h1.1.1, h1.2.1, h2.2.2.2 (by decide) rfl rfl⟩

end Autoclips
